import Mathlib

/-!
# Childguard dashboards: domain normalisation, limits, clustering, usage rows

A shallow embedding of the logic of `assets/js/dashboard.js` and
`assets/js/time_management.js`.

Modelling conventions.
* A JavaScript string is a list of characters (`Str`); `null`/`undefined` is
  `none` of an `Option`.  `toLowerCase` is the ASCII lower-casing (host names
  are ASCII); `trim` removes the ECMAScript white space and line terminators.
* Numbers read from the data source are integers (seconds, minutes and
  epoch milliseconds); `Math.round (n / 60)` on an integer `n` is the floor of
  `(n + 30) / 60`.
* A plain object used as a dictionary (`lastTimeBySite`, `rawUsage`,
  `usageMap`) is the list of its own properties in creation order; a read goes
  through `Object.prototype` when there is no own property, an assignment to
  `__proto__` of a number or a string changes nothing, and `Object.keys` lists
  the array indices first, in ascending order.
-/

namespace Childguard

/-- A JavaScript string, as its list of characters. -/
abbrev Str := List Char

/-- The characters of a string literal. -/
def str (s : String) : Str := s.toList

/-! ## String primitives -/

/-- Lower-casing of one character (`A`..`Z` to `a`..`z`, everything else unchanged). -/
def lowerChar (c : Char) : Char :=
  if 65 ≤ c.toNat ∧ c.toNat ≤ 90 then Char.ofNat (c.toNat + 32) else c

/-- The method `String.prototype.toLowerCase` on the letters `A`..`Z`; every other
character is left as it is, so the model agrees with the method on ASCII strings. -/
def toLowerCase (s : Str) : Str := s.map lowerChar

/-- White space and line terminators removed by `String.prototype.trim`. -/
def isWhite (c : Char) : Bool :=
  decide (c.toNat ∈ [9, 10, 11, 12, 13, 32, 160, 5760, 8192, 8193, 8194, 8195, 8196, 8197,
    8198, 8199, 8200, 8201, 8202, 8232, 8233, 8239, 8287, 12288, 65279])

/-- The method `String.prototype.trim`. -/
def trim (s : Str) : Str :=
  ((s.dropWhile isWhite).reverse.dropWhile isWhite).reverse

/-- The method `String.prototype.startsWith`: `startsWith p h` is `h.startsWith(p)`. -/
def startsWith : Str → Str → Bool
  | [], _ => true
  | _ :: _, [] => false
  | p :: ps, c :: cs => p == c && startsWith ps cs

/-- The method `String.prototype.endsWith`: `endsWith p h` is `h.endsWith(p)`. -/
def endsWith (p h : Str) : Bool := startsWith p.reverse h.reverse

/-- The source idiom `if (h.startsWith(p)) h = h.slice(p.length)`. -/
def stripLeading (p h : Str) : Str :=
  if startsWith p h then h.drop p.length else h

/-- The method `String.prototype.split` with a one-character separator. -/
def split (sep : Char) : Str → List Str
  | [] => [[]]
  | c :: cs =>
    if c = sep then [] :: split sep cs
    else
      match split sep cs with
      | [] => [[c]]
      | p :: ps => (c :: p) :: ps

/-- The method `Array.prototype.join` with a one-character separator. -/
def join (sep : Char) : List Str → Str
  | [] => []
  | [p] => p
  | p :: q :: ps => p ++ sep :: join sep (q :: ps)

/-- The source idiom `h.split(sep)[0]`. -/
def firstPiece (sep : Char) (h : Str) : Str := (split sep h).headD []

/-- The property `length` of a string: its number of UTF-16 code units. -/
def utf16Length (s : Str) : Nat :=
  (s.map (fun c => if c.toNat < 65536 then 1 else 2)).sum

/-- The method `Array.prototype.slice` with a negative start: the last `k` elements. -/
def lastN {α : Type} (k : Nat) (xs : List α) : List α := xs.drop (xs.length - k)

/-! ## dashboard.js: normalizeDomain -/

/-- The host part computed by lines 21-28 of `normalizeDomain`. -/
def hostPart (host : Str) : Str :=
  let h := trim (toLowerCase host)
  let h := stripLeading (str "http://") h
  let h := stripLeading (str "https://") h
  let h := stripLeading (str "www.") h
  let h := firstPiece '/' h
  firstPiece '?' h

/-- The label reduction of lines 30-40 of `normalizeDomain`. -/
def reduceLabels (h : Str) : Str :=
  let parts := split '.' h
  if parts.length ≤ 2 then h
  else
    let secondLast := parts.getD (parts.length - 2) []
    if utf16Length secondLast ≤ 3 ∧ parts.length ≥ 3 then join '.' (lastN 3 parts)
    else join '.' (lastN 2 parts)

/-- The function `normalizeDomain` of dashboard.js. -/
def normalizeDomain (host : Option Str) : Str :=
  match host with
  | none => str "Unknown"
  | some s => if s = [] then str "Unknown" else reduceLabels (hostPart s)

/-! ## time_management.js: toDisplayDomain and the ignore list -/

/-- The array `ccTlds` of `toDisplayDomain`. -/
def ccTlds : List Str := [str "in", str "uk", str "us", str "au", str "nz", str "za"]

/-- The function `toDisplayDomain` of time_management.js. -/
def toDisplayDomain (host : Str) : Str :=
  if host = [] then str "Unknown"
  else
    let parts := split '.' host
    if parts.length ≤ 2 then host
    else
      let last := parts.getD (parts.length - 1) []
      let secondLast := parts.getD (parts.length - 2) []
      if last ∈ ccTlds ∧ parts.length ≥ 3 then join '.' (parts.drop (parts.length - 3))
      else secondLast ++ '.' :: last

/-- The array `IGNORE_SUFFIXES` of time_management.js. -/
def IGNORE_SUFFIXES : List Str :=
  [str "supabase.co", str "googleapis.com", str "gstatic.com", str "gvt2.com",
   str "googleusercontent.com", str "fbcdn.net", str "doubleclick.net", str "cloudflare.com"]

/-- The function `shouldIgnoreDomain`; the suffix array it scans is passed explicitly
(the source reads the module variable `IGNORE_SUFFIXES`). -/
def shouldIgnoreDomain (suffixes : List Str) (domain : Str) : Bool :=
  match suffixes with
  | [] => false
  | suffix :: rest =>
    if domain = suffix ∨ endsWith ('.' :: suffix) domain = true then true
    else shouldIgnoreDomain rest domain

/-! ## Values read from the data source -/

/-- A limit or duration column as delivered by the data source: `null` (or a missing row),
an integer number, or a value that is not a number and that `Number` maps to `NaN`. -/
inductive JsVal where
  | null
  | num (v : Int)
  | nonNumeric
  deriving DecidableEq, Repr

/-- The expression `Math.round(n / 60)` on an integer `n`: halves round up. -/
def roundDiv60 (n : Int) : Int := (n + 30) / 60

/-! ## Limit resolution -/

/-- Lines 102-142 of `loadOverview`: the limit in minutes from the `child_settings` value
`time_limit_minutes` and the `time_limits` value `daily_limit_seconds`. -/
def resolveLimitMin (childSetting override : JsVal) : Int :=
  let limitMin : Int := 120
  let limitMin :=
    match childSetting with
    | JsVal.num parsed => parsed
    | _ => limitMin
  match override with
  | JsVal.num sec => if sec > 0 then roundDiv60 sec else limitMin
  | _ => limitMin

/-- Lines 67-79 of `loadSettingsAndUsage`: the limit in seconds from the `time_limits`
value `daily_limit_seconds` (accepted when `typeof` is `number`). -/
def resolveLimitSeconds (override : JsVal) : Int :=
  match override with
  | JsVal.num v => v
  | _ => 2 * 60 * 60

/-- Lines 81 and 155-156 of `loadSettingsAndUsage`: `remainingMin`. -/
def remainingMin (limitSeconds totalUsedSec : Int) : Int :=
  let limitMinutes := roundDiv60 limitSeconds
  let usedMinutes := roundDiv60 totalUsedSec
  max 0 (limitMinutes - usedMinutes)

/-! ## dashboard.js: total screen time and attempt clustering -/

/-- Lines 168-171 of `loadOverview`: what one row adds to `totalSec`
(`row.duration_seconds ? Number(row.duration_seconds) : 0`, then `isNaN(d) ? 0 : d`). -/
def overviewDuration (duration_seconds : JsVal) : Int :=
  match duration_seconds with
  | JsVal.num v => v
  | _ => 0

/-- Lines 168-171 of `loadOverview`: `totalSec`, from the `duration_seconds` of the rows. -/
def overviewTotalSec (durations : List JsVal) : Int :=
  durations.foldl (fun sum d => sum + overviewDuration d) 0

/-- An element of `blockedRows`: the normalised site and the value of
`new Date(row.timestamp || 0).getTime()`, `none` standing for `NaN`. -/
structure BlockedRow where
  site : Str
  timestamp : Option Int
  deriving DecidableEq

/-- The names of the members that an object literal inherits from `Object.prototype`. -/
def objectPrototypeNames : List Str :=
  [str "constructor", str "hasOwnProperty", str "isPrototypeOf", str "propertyIsEnumerable",
   str "toLocaleString", str "toString", str "valueOf", str "__defineGetter__",
   str "__defineSetter__", str "__lookupGetter__", str "__lookupSetter__", str "__proto__"]

/-- The outcome of reading `o[k]` on an object literal: `undefined`, the value of an own
property, or a member inherited from `Object.prototype` (an object, never `null`). -/
inductive Read (V : Type) where
  | undefined
  | own (v : V)
  | inherited
  deriving DecidableEq

/-- The value of the own property `k` among the own properties `o`. -/
def ownValue {V : Type} (o : List (Str × V)) (k : Str) : Option V :=
  match o with
  | [] => none
  | (k0, x) :: rest => if k0 = k then some x else ownValue rest k

/-- The expression `o[k]` on an object literal with own properties `o`: the accessor
`__proto__` yields `Object.prototype`, an own property yields its value, and otherwise
the lookup continues in `Object.prototype`. -/
def readProp {V : Type} (o : List (Str × V)) (k : Str) : Read V :=
  if k = str "__proto__" then Read.inherited
  else
    match ownValue o k with
    | some v => Read.own v
    | none => if k ∈ objectPrototypeNames then Read.inherited else Read.undefined

/-- Creation or update of the own property `k`: an existing property keeps its place, a
new one comes last. -/
def writeOwn {V : Type} (o : List (Str × V)) (k : Str) (v : V) : List (Str × V) :=
  match o with
  | [] => [(k, v)]
  | (k0, x) :: rest => if k0 = k then (k0, v) :: rest else (k0, x) :: writeOwn rest k v

/-- The statement `o[k] = v` for a number or a string `v`: the setter `__proto__` ignores
such a value, any other name becomes (or stays) an own property. -/
def writeProp {V : Type} (o : List (Str × V)) (k : Str) (v : V) : List (Str × V) :=
  if k = str "__proto__" then o else writeOwn o k v

/-- The array index that a property name denotes, if any: a decimal numeral without a
leading zero, below `2^32 - 1`. -/
def arrayIndex (k : Str) : Option Nat :=
  let n := k.foldl (fun n c => 10 * n + (c.toNat - 48)) 0
  if k ≠ [] ∧ (∀ c ∈ k, 48 ≤ c.toNat ∧ c.toNat ≤ 57) ∧
      (k.head? = some '0' → k.length = 1) ∧ n < 4294967295 then some n
  else none

/-- Insertion of an indexed property among indexed properties in ascending order. -/
def insertIndexed {V : Type} (e : Nat × (Str × V)) :
    List (Nat × (Str × V)) → List (Nat × (Str × V))
  | [] => [e]
  | b :: l => if e.1 ≤ b.1 then e :: b :: l else b :: insertIndexed e l

/-- Indexed properties in ascending order of their index. -/
def sortIndexed {V : Type} : List (Nat × (Str × V)) → List (Nat × (Str × V))
  | [] => []
  | e :: l => insertIndexed e (sortIndexed l)

/-- The own properties in the order of `Object.keys`: the array indices in ascending
order, then the other names in creation order. -/
def objectEntries {V : Type} (o : List (Str × V)) : List (Str × V) :=
  (sortIndexed (o.filterMap (fun e => (arrayIndex e.1).map (fun n => (n, e))))).map Prod.snd ++
    o.filter (fun e => (arrayIndex e.1).isNone)

/-- The loop variables `lastTimeBySite` (an object literal, by its own properties) and
`attempts` (each attempt is its site). -/
structure ClusterState where
  lastTimeBySite : List (Str × Int)
  attempts : List Str

/-- The constant `ONE_MIN`, in milliseconds. -/
def ONE_MIN : Int := 60 * 1000

/-- Line 202: `row.site || 'Unknown'`. -/
def siteKey (row : BlockedRow) : Str :=
  if row.site = [] then str "Unknown" else row.site

/-- One iteration of the loop of lines 200-215. When `lastTimeBySite[site]` is an
inherited member, `last == null` is false, `t - last` is `NaN` and `NaN > ONE_MIN` is
false: nothing is pushed. -/
def clusterStep (st : ClusterState) (row : BlockedRow) : ClusterState :=
  let site := siteKey row
  match row.timestamp with
  | none => { st with attempts := st.attempts ++ [site] }
  | some t =>
    let attempts :=
      match readProp st.lastTimeBySite site with
      | Read.undefined => st.attempts ++ [site]
      | Read.own last => if t - last > ONE_MIN then st.attempts ++ [site] else st.attempts
      | Read.inherited => st.attempts
    { lastTimeBySite := writeProp st.lastTimeBySite site t, attempts := attempts }

/-- The loop of lines 197-215 over `blockedRows`. -/
def clusterLoop (blockedRows : List BlockedRow) : ClusterState :=
  blockedRows.foldl clusterStep { lastTimeBySite := [], attempts := [] }

/-! ## time_management.js: usage aggregation -/

/-- A row of the `activity_logs` query of `loadSettingsAndUsage`; `duration_seconds` is a
number column, `none` standing for `null`. -/
structure UsageLog where
  site_or_app : Option Str
  duration_seconds : Option Int
  deriving DecidableEq

/-- Line 104: `r.site_or_app || 'Unknown'`. -/
def rawSite (r : UsageLog) : Str :=
  match r.site_or_app with
  | none => str "Unknown"
  | some s => if s = [] then str "Unknown" else s

/-- Lines 105 and 152: `r.duration_seconds || 0`. -/
def rawDuration (r : UsageLog) : Int := r.duration_seconds.getD 0

/-- A value held by `rawUsage` or `usageMap`: a number, or the string that `+` produces
once an inherited member is an operand (the text of a function followed or preceded by
digits, never the text of a number). -/
inductive Seconds where
  | num (v : Int)
  | text
  deriving DecidableEq, Inhabited

/-- The expression `(m[k] || 0) + v`, from the outcome of reading `m[k]`: numbers add,
and an operand that is an inherited member or a string makes the result a string. -/
def plusOrZero (r : Read Seconds) (v : Seconds) : Seconds :=
  match r, v with
  | Read.undefined, Seconds.num y => Seconds.num (0 + y)
  | Read.own (Seconds.num x), Seconds.num y => Seconds.num (x + y)
  | _, _ => Seconds.text

/-- The statement `m[k] = (m[k] || 0) + v` of lines 106 and 113. -/
def addTo (m : List (Str × Seconds)) (k : Str) (v : Seconds) : List (Str × Seconds) :=
  writeProp m k (plusOrZero (readProp m k) v)

/-- Lines 102-107: `rawUsage`, by its own properties. -/
def rawUsage (logs : List UsageLog) : List (Str × Seconds) :=
  logs.foldl (fun m r => addTo m (rawSite r) (Seconds.num (rawDuration r))) []

/-- Lines 110-114: `usageMap`, by its own properties; `Object.keys(rawUsage)` gives the
hosts and `rawUsage[host]` is then the own value. -/
def usageMap (logs : List UsageLog) : List (Str × Seconds) :=
  (objectEntries (rawUsage logs)).foldl (fun m hv => addTo m (toDisplayDomain hv.1) hv.2) []

/-- Lines 117-119: `rows` before filtering, one per key of `Object.keys(usageMap)`. -/
def usageRows (logs : List UsageLog) : List (Str × Seconds) :=
  objectEntries (usageMap logs)

/-- Lines 122-124: the predicate of `rows.filter`; `r.seconds >= 5` is false for a string
that is not the text of a number. -/
def keepRow (suffixes : List Str) (r : Str × Seconds) : Bool :=
  !shouldIgnoreDomain suffixes r.1 &&
    (match r.2 with
     | Seconds.num x => decide (x ≥ 5)
     | Seconds.text => false)

/-- The rows whose seconds are numbers, with these numbers. -/
def numericRows (rows : List (Str × Seconds)) : List (Str × Int) :=
  rows.filterMap (fun r =>
    match r.2 with
    | Seconds.num x => some (r.1, x)
    | Seconds.text => none)

/-- Insertion of `a` in front of a list already ordered by the comparator
`b.seconds - a.seconds`: `a` passes the rows the comparator puts strictly before it. -/
def insertRow (a : Str × Int) : List (Str × Int) → List (Str × Int)
  | [] => [a]
  | b :: l => if b.2 - a.2 > 0 then b :: insertRow a l else a :: b :: l

/-- Lines 127-129: `rows.sort` with the comparator `b.seconds - a.seconds`
(`Array.prototype.sort` is stable). -/
def sortRows : List (Str × Int) → List (Str × Int)
  | [] => []
  | a :: l => insertRow a (sortRows l)

/-- Lines 122-129: the displayed `rows`, from the rows of lines 117-119; the rows that
pass the filter hold numbers. -/
def displayRows (suffixes : List Str) (rows : List (Str × Seconds)) : List (Str × Int) :=
  sortRows (numericRows (rows.filter (keepRow suffixes)))

/-- Lines 151-153: `totalUsedSec`. -/
def totalUsedSec (logs : List UsageLog) : Int :=
  logs.foldl (fun s r => s + rawDuration r) 0

/-! ## Specification-side definitions -/

/-- The total the specification describes: the sum of exactly the non-negative numeric
durations. -/
def sumNonNegativeNumeric (durations : List JsVal) : Int :=
  (durations.map (fun d => match d with
    | JsVal.num v => if 0 ≤ v then v else 0
    | _ => 0)).sum

/-- The numeric content of a column value: the number itself, nothing otherwise. -/
def asNumber (d : JsVal) : Option Int :=
  match d with
  | JsVal.num v => some v
  | _ => none

/-- A tier value the specification treats as not present: absent or non-numeric. -/
def notPresent (v : JsVal) : Prop := v = JsVal.null ∨ v = JsVal.nonNumeric

/-- The timestamp of the last parsed event of the normalised domain `d` among `rows`. -/
def lastParsed (rows : List BlockedRow) (d : Str) : Option Int :=
  (rows.filterMap (fun r => if r.site = d then r.timestamp else none)).getLast?

/-- The rule of the specification for opening an attempt at `row`, after the events
`earlier`: (a) no earlier parsed event of the same normalised domain, or (b) more than 60
seconds after the last parsed one, or (c) an unparseable timestamp. -/
def opensAttempt (earlier : List BlockedRow) (row : BlockedRow) : Prop :=
  (∀ r ∈ earlier, r.site = row.site → r.timestamp = none) ∨
  (∃ t last, row.timestamp = some t ∧ lastParsed earlier row.site = some last ∧
    t - last > 60 * 1000) ∨
  row.timestamp = none

/-- The distinct elements of a list in the order of their first occurrence. -/
def firstSeen (xs : List Str) : List Str :=
  xs.foldl (fun acc x => if x ∈ acc then acc else acc ++ [x]) []

/-- The number a bucket value stands for, a string counting for nothing. -/
def secondsValue (v : Seconds) : Int :=
  match v with
  | Seconds.num x => x
  | Seconds.text => 0

/-- The seconds of the entries of `m` whose key `f` sends to `d`. -/
def weight (f : Str → Str) (d : Str) (m : List (Str × Seconds)) : Int :=
  ((m.filter (fun p => f p.1 = d)).map (fun p => secondsValue p.2)).sum

/-- The own properties with a name that is not inherited hold numbers. -/
def PlainNumeric (m : List (Str × Seconds)) : Prop :=
  ∀ e ∈ m, e.1 ∉ objectPrototypeNames → ∃ x, e.2 = Seconds.num x

/-- The bucket the specification describes for the domain `d`: the sum of the durations of
the events whose raw key `toDisplayDomain` sends to `d`. -/
def bucketSum (logs : List UsageLog) (d : Str) : Int :=
  ((logs.filter (fun r => toDisplayDomain (rawSite r) = d)).map rawDuration).sum

/-! ## Rounding and limits -/

theorem roundDiv60_bounds (n : Int) :
    60 * roundDiv60 n ≤ n + 30 ∧ n + 30 < 60 * roundDiv60 n + 60 := by
  unfold roundDiv60
  omega

theorem roundDiv60_mono {a b : Int} (h : a ≤ b) : roundDiv60 a ≤ roundDiv60 b := by
  unfold roundDiv60
  omega

/-- C4: in `loadOverview`, an override `daily_limit_seconds` holding a number `s > 0`
fixes the resolved limit at `Math.round(s / 60)` minutes, whatever the child-setting tier
holds. -/
theorem override_tier_wins (s : Int) (childSetting : JsVal) (hs : s > 0) :
    resolveLimitMin childSetting (JsVal.num s) = roundDiv60 s := by
  simp [resolveLimitMin, hs]

theorem override_tier_wins_witness :
    (3600 : Int) > 0 ∧ resolveLimitMin (JsVal.num 90) (JsVal.num 3600) = 60 :=
  ⟨by decide, (override_tier_wins 3600 (JsVal.num 90) (by decide)).trans (by decide)⟩

/-- C5, the failing inputs: in `loadOverview` a child setting of 0 is taken as the limit
(the sibling override tier tests `sec > 0`, this tier only `!isNaN`) and a valid override
of 20 seconds resolves to 0 minutes; in `loadSettingsAndUsage` an override of 0 is taken
as the limit instead of falling through to 7200. The resolved limit is not positive. -/
theorem resolved_limit_not_always_positive :
    ¬ (0 < resolveLimitMin JsVal.null (JsVal.num 20)) ∧
    resolveLimitMin (JsVal.num 0) JsVal.null = 0 ∧
    resolveLimitSeconds (JsVal.num 0) = 0 ∧ resolveLimitSeconds (JsVal.num 0) ≠ 7200 := by
  decide

/-- What does fall through: an absent or non-numeric tier (in `loadOverview` also an
override that is not greater than zero); with no valid tier the result is 120 minutes,
respectively 7200 seconds; and the limit of `loadOverview` is positive when it comes from
the default, from a positive child setting, or from an override of at least 30 seconds. -/
theorem limit_fallthrough (childSetting override : JsVal) (v m : Int)
    (hc : notPresent childSetting) (ho : notPresent override) (hv : v ≤ 0) (hm : 0 < m) :
    resolveLimitMin childSetting override = 120 ∧
    resolveLimitMin childSetting (JsVal.num v) = 120 ∧
    resolveLimitMin (JsVal.num m) override = m ∧
    resolveLimitMin (JsVal.num m) (JsVal.num v) = m ∧
    0 < resolveLimitMin (JsVal.num m) override ∧
    resolveLimitSeconds override = 7200 ∧
    resolveLimitSeconds (JsVal.num m) = m ∧
    (∀ (c : JsVal) (s : Int), 30 ≤ s → 0 < resolveLimitMin c (JsVal.num s)) := by
  have hv2 : ¬ (0 < v) := by omega
  have h3 : resolveLimitMin (JsVal.num m) override = m := by
    rcases ho with rfl | rfl <;> rfl
  refine ⟨?_, ?_, h3, ?_, ?_, ?_, rfl, ?_⟩
  · rcases hc with rfl | rfl <;> rcases ho with rfl | rfl <;> rfl
  · rcases hc with rfl | rfl <;> simp [resolveLimitMin, hv2]
  · simp [resolveLimitMin, hv2]
  · rw [h3]
    exact hm
  · rcases ho with rfl | rfl <;> rfl
  · intro c s hs
    have h0 : s > 0 := by omega
    have hr : 0 < roundDiv60 s := by
      unfold roundDiv60
      omega
    simp [resolveLimitMin, h0, hr]

theorem limit_fallthrough_witness :
    resolveLimitMin JsVal.null JsVal.nonNumeric = 120 ∧
    resolveLimitMin JsVal.null (JsVal.num (-5)) = 120 ∧
    resolveLimitMin (JsVal.num 90) JsVal.nonNumeric = 90 ∧
    resolveLimitMin (JsVal.num 90) (JsVal.num (-5)) = 90 ∧
    0 < resolveLimitMin (JsVal.num 90) JsVal.nonNumeric ∧
    resolveLimitSeconds JsVal.nonNumeric = 7200 ∧
    resolveLimitSeconds (JsVal.num 90) = 90 ∧
    (∀ (c : JsVal) (s : Int), 30 ≤ s → 0 < resolveLimitMin c (JsVal.num s)) :=
  limit_fallthrough JsVal.null JsVal.nonNumeric (-5) 90 (Or.inl rfl) (Or.inr rfl)
    (by decide) (by decide)

/-- C7: `remainingMin` of `loadSettingsAndUsage` is never negative and is 0 whenever the
total used is at least the limit, for every limit and total (the non-negative ones in
particular); with a limit of 60 seconds and 100 seconds used it is 0. -/
theorem remainingMin_nonneg (limitSeconds used : Int) :
    remainingMin limitSeconds used =
      max 0 (roundDiv60 limitSeconds - roundDiv60 used) ∧
    0 ≤ remainingMin limitSeconds used ∧
    (limitSeconds ≤ used → remainingMin limitSeconds used = 0) ∧
    remainingMin 60 100 = 0 := by
  unfold remainingMin
  refine ⟨rfl, le_max_left _ _, fun h => ?_, by decide⟩
  have := roundDiv60_mono h
  exact max_eq_left (by omega)

/-! ## Totals -/

theorem foldl_add_eq_sum {α : Type} (f : α → Int) (xs : List α) (a : Int) :
    xs.foldl (fun s x => s + f x) a = a + (xs.map f).sum := by
  induction xs generalizing a with
  | nil => simp
  | cons x xs ih => simp [ih, add_assoc]

theorem sum_map_overviewDuration (durations : List JsVal) :
    (durations.map overviewDuration).sum = (durations.filterMap asNumber).sum := by
  induction durations with
  | nil => rfl
  | cons d ds ih => cases d <;> simp [overviewDuration, asNumber, ih]

theorem sum_map_getD (xs : List (Option Int)) :
    (xs.map (fun d => d.getD 0)).sum = (xs.filterMap id).sum := by
  induction xs with
  | nil => rfl
  | cons d ds ih => cases d <;> simp [ih]

/-- C6, as stated, fails: a negative duration is added, not dropped; the total of the
single duration -5 is -5 in both pages, where the specification's sum is 0. -/
theorem negative_duration_is_summed :
    overviewTotalSec [JsVal.num (-5)] = -5 ∧
    overviewTotalSec [JsVal.num (-5)] ≠ sumNonNegativeNumeric [JsVal.num (-5)] ∧
    totalUsedSec [{ site_or_app := none, duration_seconds := some (-5) }] = -5 := by
  decide

/-- C6, amended: a duration that is absent or not a number contributes 0, and every
numeric duration, negative ones included, is added: `totalSec` of `loadOverview` and
`totalUsedSec` of `loadSettingsAndUsage` equal the sum of all numeric durations. -/
theorem totals_sum_numeric_durations (durations : List JsVal) (logs : List UsageLog) :
    overviewTotalSec durations = (durations.filterMap asNumber).sum ∧
    totalUsedSec logs = (logs.filterMap (fun r => r.duration_seconds)).sum := by
  constructor
  · unfold overviewTotalSec
    rw [foldl_add_eq_sum, sum_map_overviewDuration]
    simp
  · unfold totalUsedSec
    rw [foldl_add_eq_sum]
    have h := sum_map_getD (logs.map (fun r => r.duration_seconds))
    simp only [List.map_map, List.filterMap_map] at h
    simpa [rawDuration, Function.comp_def] using h

/-! ## normalizeDomain: empty results -/

/-- C9, the failing inputs: a host that is only a slash, only a blank, or only a scheme is
truthy, passes the guard of line 20 and leaves nothing, so the result is the empty
string rather than "Unknown". -/
theorem normalizeDomain_empty_result :
    normalizeDomain (some (str "/")) = [] ∧
    normalizeDomain (some (str " ")) = [] ∧
    normalizeDomain (some (str "https://")) = [] := by
  decide

/-! ## Attempt clustering -/

/-- C1, the failing input: a single blocked event whose normalised domain is
"constructor" (the host of http://constructor/x) meets rule (a) of the specification, no
earlier parsed event of its domain, and yet opens no attempt, because `lastTimeBySite` is
an object literal and reads the inherited member; events of the domain "__proto__" never
open an attempt when they parse; an ordinary domain at 0 s, 70 s and 80 s gives 2. -/
theorem cluster_misses_inherited_domain :
    normalizeDomain (some (str "http://constructor/x")) = str "constructor" ∧
    opensAttempt [] { site := str "constructor", timestamp := some 0 } ∧
    (clusterLoop [{ site := str "constructor", timestamp := some 0 }]).attempts = [] ∧
    (clusterLoop [{ site := str "__proto__", timestamp := some 0 },
      { site := str "__proto__", timestamp := some 70000 }]).attempts = [] ∧
    (clusterLoop [{ site := str "a.example.com", timestamp := some 0 },
      { site := str "a.example.com", timestamp := some 70000 },
      { site := str "a.example.com", timestamp := some 80000 }]).attempts =
        [str "a.example.com", str "a.example.com"] :=
  ⟨by decide, Or.inl (fun _ h => nomatch h), by decide, by decide, by decide⟩

theorem ownValue_writeOwn {V : Type} (o : List (Str × V)) (k d : Str) (v : V) :
    ownValue (writeOwn o k v) d = if k = d then some v else ownValue o d := by
  induction o with
  | nil =>
    by_cases h : k = d <;> simp [writeOwn, ownValue, h]
  | cons p rest ih =>
    obtain ⟨k0, x⟩ := p
    by_cases h0 : k0 = k
    · subst h0
      by_cases h : k0 = d <;> simp [writeOwn, ownValue, h]
    · by_cases h : k = d
      · subst h
        simp [writeOwn, ownValue, h0, ih]
      · by_cases h1 : k0 = d
        · subst h1
          simp [writeOwn, ownValue, h0, h]
        · simp [writeOwn, ownValue, h0, h1, ih, h]

theorem proto_mem_names : str "__proto__" ∈ objectPrototypeNames := by decide

theorem readProp_plain {V : Type} (o : List (Str × V)) (d : Str)
    (hd : d ∉ objectPrototypeNames) :
    readProp o d =
      match ownValue o d with
      | some v => Read.own v
      | none => Read.undefined := by
  have hp : ¬ (d = str "__proto__") := fun h => hd (h ▸ proto_mem_names)
  unfold readProp
  rw [if_neg hp]
  cases ownValue o d with
  | none => simp [hd]
  | some v => rfl

theorem ownValue_writeProp {V : Type} (o : List (Str × V)) (k d : Str) (v : V)
    (hd : d ∉ objectPrototypeNames) :
    ownValue (writeProp o k v) d = if k = d then some v else ownValue o d := by
  have hp : ¬ (d = str "__proto__") := fun h => hd (h ▸ proto_mem_names)
  unfold writeProp
  by_cases hk : k = str "__proto__"
  · have hkd : ¬ (k = d) := fun h => hp (h ▸ hk)
    rw [if_pos hk, if_neg hkd]
  · rw [if_neg hk, ownValue_writeOwn]

theorem siteKey_eq_iff (r1 r2 : BlockedRow) (h1 : r1.site ≠ str "Unknown")
    (h2 : r2.site ≠ str "Unknown") : siteKey r1 = siteKey r2 ↔ r1.site = r2.site := by
  unfold siteKey
  by_cases e1 : r1.site = []
  · by_cases e2 : r2.site = []
    · rw [if_pos e1, if_pos e2, e1, e2]
      simp
    · rw [if_pos e1, if_neg e2]
      constructor
      · intro h
        exact absurd h.symm h2
      · intro h
        exact absurd (h.symm.trans e1) e2
  · by_cases e2 : r2.site = []
    · rw [if_neg e1, if_pos e2]
      constructor
      · intro h
        exact absurd h h1
      · intro h
        exact absurd (h.trans e2) e1
    · rw [if_neg e1, if_neg e2]

theorem clusterLoop_snoc (earlier : List BlockedRow) (row : BlockedRow) :
    clusterLoop (earlier ++ [row]) = clusterStep (clusterLoop earlier) row := by
  simp [clusterLoop]

theorem lastParsed_snoc (earlier : List BlockedRow) (row : BlockedRow) (d : Str) :
    lastParsed (earlier ++ [row]) d =
      match row.timestamp with
      | some t => if row.site = d then some t else lastParsed earlier d
      | none => lastParsed earlier d := by
  unfold lastParsed
  rw [List.filterMap_append, List.getLast?_append]
  cases ht : row.timestamp with
  | none => simp [ht]
  | some t =>
    by_cases hd : row.site = d
    · simp [ht, hd]
    · simp [hd]

theorem clusterStep_lastTime (st : ClusterState) (row : BlockedRow) :
    (clusterStep st row).lastTimeBySite =
      match row.timestamp with
      | some t => writeProp st.lastTimeBySite (siteKey row) t
      | none => st.lastTimeBySite := by
  unfold clusterStep
  cases row.timestamp <;> rfl

/-- For a domain that is not the name of an inherited member, `lastTimeBySite` holds the
timestamp of the last parsed event of that domain. -/
theorem clusterLoop_lastTime (rows : List BlockedRow) (row : BlockedRow)
    (hU : ∀ r ∈ rows, r.site ≠ str "Unknown") (hr : row.site ≠ str "Unknown")
    (hk : siteKey row ∉ objectPrototypeNames) :
    ownValue (clusterLoop rows).lastTimeBySite (siteKey row) = lastParsed rows row.site := by
  induction rows using List.reverseRecOn with
  | nil => rfl
  | append_singleton earlier r ih =>
    have hU2 : ∀ x ∈ earlier, x.site ≠ str "Unknown" := fun x hx =>
      hU x (List.mem_append_left _ hx)
    have hrU : r.site ≠ str "Unknown" := hU r (by simp)
    rw [clusterLoop_snoc, clusterStep_lastTime, lastParsed_snoc]
    cases ht : r.timestamp with
    | none => exact ih hU2
    | some t =>
      simp only []
      rw [ownValue_writeProp _ _ _ _ hk, ih hU2]
      by_cases hd : r.site = row.site
      · rw [if_pos ((siteKey_eq_iff r row hrU hr).2 hd), if_pos hd]
      · rw [if_neg (fun h => hd ((siteKey_eq_iff r row hrU hr).1 h)), if_neg hd]

theorem lastParsed_eq_none_iff (rows : List BlockedRow) (d : Str) :
    lastParsed rows d = none ↔ ∀ r ∈ rows, r.site = d → r.timestamp = none := by
  induction rows using List.reverseRecOn with
  | nil => simp [lastParsed]
  | append_singleton earlier row ih =>
    rw [lastParsed_snoc]
    cases ht : row.timestamp with
    | none =>
      simp only [ih, List.mem_append, List.mem_singleton]
      constructor
      · rintro h r (hr | rfl) hk
        · exact h r hr hk
        · exact ht
      · intro h r hr hk
        exact h r (Or.inl hr) hk
    | some t =>
      by_cases hd : row.site = d
      · simp only [hd, if_true]
        constructor
        · intro h
          cases h
        · intro h
          have := h row (by simp) hd
          rw [ht] at this
          cases this
      · simp only [hd, if_false, ih, List.mem_append, List.mem_singleton]
        constructor
        · rintro h r (hr | rfl) hk
          · exact h r hr hk
          · exact absurd hk hd
        · intro h r hr hk
          exact h r (Or.inl hr) hk

/-- Away from the inherited names the loop follows the rule of the specification: when
the domain of the event is not the name of a member of `Object.prototype` (and no domain
is the literal "Unknown", which `normalizeDomain` never returns for a truthy input), an
attempt is opened exactly when (a), (b) or (c) holds, and a parsed event records its
timestamp whether or not it opened one. -/
theorem cluster_rule_of_plain_domain (earlier : List BlockedRow) (row : BlockedRow)
    (hU : ∀ r ∈ earlier, r.site ≠ str "Unknown") (hr : row.site ≠ str "Unknown")
    (hk : siteKey row ∉ objectPrototypeNames) :
    (opensAttempt earlier row →
      (clusterLoop (earlier ++ [row])).attempts =
        (clusterLoop earlier).attempts ++ [siteKey row]) ∧
    (¬ opensAttempt earlier row →
      (clusterLoop (earlier ++ [row])).attempts = (clusterLoop earlier).attempts) ∧
    (∀ t, row.timestamp = some t →
      ownValue (clusterLoop (earlier ++ [row])).lastTimeBySite (siteKey row) = some t) ∧
    (row.timestamp = none →
      (clusterLoop (earlier ++ [row])).lastTimeBySite = (clusterLoop earlier).lastTimeBySite) := by
  have hlast := clusterLoop_lastTime earlier row hU hr hk
  have hread := readProp_plain (clusterLoop earlier).lastTimeBySite (siteKey row) hk
  rw [hlast] at hread
  refine ⟨?_, ?_, ?_, ?_⟩
  · intro h
    rw [clusterLoop_snoc]
    unfold clusterStep
    cases ht : row.timestamp with
    | none => rfl
    | some t =>
      simp only [hread]
      rcases h with h | ⟨t2, last, h1, h2, h3⟩ | h
      · rw [(lastParsed_eq_none_iff earlier row.site).2 h]
      · rw [ht] at h1
        cases h1
        rw [h2]
        have h4 : 60000 + last < t := by omega
        simp [ONE_MIN, h4]
      · rw [ht] at h
        cases h
  · intro h
    rw [clusterLoop_snoc]
    unfold clusterStep
    cases ht : row.timestamp with
    | none => exact absurd (Or.inr (Or.inr ht)) h
    | some t =>
      simp only [hread]
      cases hl : lastParsed earlier row.site with
      | none =>
        exact absurd (Or.inl ((lastParsed_eq_none_iff earlier row.site).1 hl)) h
      | some last =>
        have h3 : ¬ (t - last > 60 * 1000) := fun h3 =>
          h (Or.inr (Or.inl ⟨t, last, ht, hl, h3⟩))
        have h4 : t ≤ 60000 + last := by omega
        simp [ONE_MIN, h4]
  · intro t ht
    rw [clusterLoop_snoc, clusterStep_lastTime, ht]
    simp only []
    rw [ownValue_writeProp _ _ _ _ hk, if_pos rfl]
  · intro ht
    rw [clusterLoop_snoc, clusterStep_lastTime, ht]

/-! ## Usage aggregation -/

/-- C2, the failing input: one allowed event of 100 seconds whose raw key is
"constructor" (or "toString") leaves a bucket that holds a string, not the sum 100,
because `rawUsage` is an object literal and `(rawUsage[site] || 0) + dur` concatenates
with the inherited member; `totalUsedSec` is still 100 and the raw keys a.example.com
(100 s) and b.example.com (50 s) still give the single bucket example.com with 150 s. -/
theorem usage_bucket_of_inherited_key :
    bucketSum [{ site_or_app := some (str "constructor"), duration_seconds := some 100 }]
      (str "constructor") = 100 ∧
    usageMap [{ site_or_app := some (str "constructor"), duration_seconds := some 100 }] =
      [(str "constructor", Seconds.text)] ∧
    usageMap [{ site_or_app := some (str "toString"), duration_seconds := some 100 }] =
      [(str "toString", Seconds.text)] ∧
    totalUsedSec [{ site_or_app := some (str "constructor"), duration_seconds := some 100 }] =
      100 ∧
    usageMap [{ site_or_app := some (str "a.example.com"), duration_seconds := some 100 },
      { site_or_app := some (str "b.example.com"), duration_seconds := some 50 }] =
        [(str "example.com", Seconds.num 150)] := by
  decide

/-- C3, the failing input: the events zeta (10 s) then 42 (10 s) give two buckets of equal
seconds, first seen in the order zeta, 42, and the displayed rows are 42, zeta, because
`Object.keys` lists the array index 42 first. -/
theorem display_order_of_integer_key :
    firstSeen ([{ site_or_app := some (str "zeta"), duration_seconds := some 10 },
      { site_or_app := some (str "42"), duration_seconds := some 10 }].map
        (fun r => toDisplayDomain (rawSite r))) = [str "zeta", str "42"] ∧
    displayRows IGNORE_SUFFIXES
      (usageRows [{ site_or_app := some (str "zeta"), duration_seconds := some 10 },
        { site_or_app := some (str "42"), duration_seconds := some 10 }]) =
      [(str "42", 10), (str "zeta", 10)] := by
  decide

theorem toDisplayDomain_inherited :
    ∀ k ∈ objectPrototypeNames, toDisplayDomain k = k := by
  decide

theorem plain_of_toDisplayDomain (k d : Str) (hd : d ∉ objectPrototypeNames)
    (h : toDisplayDomain k = d) : k ∉ objectPrototypeNames := by
  intro hk
  rw [toDisplayDomain_inherited k hk] at h
  exact hd (h ▸ hk)

theorem mem_of_ownValue {V : Type} (o : List (Str × V)) (k : Str) (v : V)
    (h : ownValue o k = some v) : (k, v) ∈ o := by
  induction o with
  | nil => cases h
  | cons p rest ih =>
    obtain ⟨k0, x⟩ := p
    unfold ownValue at h
    by_cases h0 : k0 = k
    · rw [if_pos h0] at h
      cases h
      subst h0
      simp
    · rw [if_neg h0] at h
      exact List.mem_cons_of_mem _ (ih h)

theorem mem_writeOwn {V : Type} (o : List (Str × V)) (k : Str) (v : V) (e : Str × V)
    (h : e ∈ writeOwn o k v) : e ∈ o ∨ e = (k, v) := by
  induction o with
  | nil =>
    simp only [writeOwn, List.mem_singleton] at h
    exact Or.inr h
  | cons p rest ih =>
    obtain ⟨k0, x⟩ := p
    unfold writeOwn at h
    by_cases h0 : k0 = k
    · rw [if_pos h0] at h
      rcases List.mem_cons.1 h with h | h
      · right
        rw [h, h0]
      · exact Or.inl (List.mem_cons_of_mem _ h)
    · rw [if_neg h0] at h
      rcases List.mem_cons.1 h with h | h
      · left
        rw [h]
        simp
      · rcases ih h with h | h
        · exact Or.inl (List.mem_cons_of_mem _ h)
        · exact Or.inr h

theorem keys_writeOwn {V : Type} (o : List (Str × V)) (k : Str) (v : V) :
    (writeOwn o k v).map Prod.fst =
      if k ∈ o.map Prod.fst then o.map Prod.fst else o.map Prod.fst ++ [k] := by
  induction o with
  | nil => rfl
  | cons p rest ih =>
    obtain ⟨k0, x⟩ := p
    unfold writeOwn
    by_cases h0 : k0 = k
    · subst h0
      have hk2 : k0 ∈ ((k0, x) :: rest).map Prod.fst := List.mem_cons_self _ _
      rw [if_pos rfl, if_pos hk2]
      rfl
    · have h1 : ¬ (k = k0) := fun h => h0 h.symm
      rw [if_neg h0, List.map_cons, ih]
      by_cases hk : k ∈ rest.map Prod.fst
      · have hk2 : k ∈ ((k0, x) :: rest).map Prod.fst := List.mem_cons_of_mem _ hk
        rw [if_pos hk, if_pos hk2]
        rfl
      · have hk2 : ¬ k ∈ ((k0, x) :: rest).map Prod.fst := by
          intro h
          rcases List.mem_cons.1 h with h | h
          · exact h1 h
          · exact hk h
        rw [if_neg hk, if_neg hk2]
        rfl

theorem plusOrZero_plain (m : List (Str × Seconds)) (k : Str) (y : Int)
    (hm : PlainNumeric m) (hk : k ∉ objectPrototypeNames) :
    plusOrZero (readProp m k) (Seconds.num y) =
      Seconds.num (((ownValue m k).map secondsValue).getD 0 + y) := by
  rw [readProp_plain m k hk]
  cases hv : ownValue m k with
  | none => rfl
  | some w =>
    obtain ⟨x, hx⟩ := hm (k, w) (mem_of_ownValue m k w hv) hk
    simp only at hx
    subst hx
    rfl

theorem plainNumeric_addTo (m : List (Str × Seconds)) (k : Str) (y : Int)
    (hm : PlainNumeric m) : PlainNumeric (addTo m k (Seconds.num y)) := by
  unfold addTo writeProp
  by_cases hp : k = str "__proto__"
  · rw [if_pos hp]
    exact hm
  · rw [if_neg hp]
    intro e he hplain
    rcases mem_writeOwn _ _ _ _ he with he | he
    · exact hm e he hplain
    · subst he
      exact ⟨_, plusOrZero_plain m k y hm hplain⟩

theorem rawUsage_snoc (logs : List UsageLog) (r : UsageLog) :
    rawUsage (logs ++ [r]) =
      addTo (rawUsage logs) (rawSite r) (Seconds.num (rawDuration r)) := by
  simp [rawUsage]

theorem plainNumeric_rawUsage (logs : List UsageLog) : PlainNumeric (rawUsage logs) := by
  induction logs using List.reverseRecOn with
  | nil =>
    intro e he
    cases he
  | append_singleton logs r ih =>
    rw [rawUsage_snoc]
    exact plainNumeric_addTo _ _ _ ih

theorem filter_writeOwn_of_ne (f : Str → Str) (d : Str) (o : List (Str × Seconds))
    (k : Str) (v : Seconds) (h : f k ≠ d) :
    (writeOwn o k v).filter (fun p => f p.1 = d) = o.filter (fun p => f p.1 = d) := by
  induction o with
  | nil => simp [writeOwn, h]
  | cons p rest ih =>
    obtain ⟨k0, x⟩ := p
    unfold writeOwn
    by_cases h0 : k0 = k
    · subst h0
      rw [if_pos rfl]
      simp [List.filter_cons, h]
    · rw [if_neg h0, List.filter_cons, List.filter_cons, ih]

theorem weight_writeOwn (f : Str → Str) (d : Str) (o : List (Str × Seconds)) (k : Str)
    (y : Int) (h : f k = d) :
    weight f d (writeOwn o k (Seconds.num y)) + ((ownValue o k).map secondsValue).getD 0 =
      weight f d o + y := by
  induction o with
  | nil => simp [writeOwn, weight, ownValue, h, secondsValue]
  | cons p rest ih =>
    obtain ⟨k0, x⟩ := p
    unfold weight at ih ⊢
    unfold writeOwn ownValue
    by_cases h0 : k0 = k
    · subst h0
      simp only [if_true, List.filter_cons, h, decide_True, List.map_cons, List.sum_cons,
        Option.map_some', Option.getD_some, secondsValue]
      omega
    · simp only [h0, if_false, List.filter_cons]
      by_cases h1 : f k0 = d
      · simp only [h1, decide_True, if_true, List.map_cons, List.sum_cons]
        omega
      · simp only [h1, decide_False]
        exact ih

theorem weight_addTo (f : Str → Str) (d : Str) (m : List (Str × Seconds)) (k : Str)
    (y : Int) (hm : PlainNumeric m) (hf : f k = d → k ∉ objectPrototypeNames) :
    weight f d (addTo m k (Seconds.num y)) = weight f d m + if f k = d then y else 0 := by
  unfold addTo writeProp
  by_cases hk : f k = d
  · have hplain := hf hk
    have hp : ¬ (k = str "__proto__") := fun h => hplain (h ▸ proto_mem_names)
    rw [if_neg hp, if_pos hk, plusOrZero_plain m k y hm hplain]
    have := weight_writeOwn f d m k (((ownValue m k).map secondsValue).getD 0 + y) hk
    omega
  · rw [if_neg hk]
    by_cases hp : k = str "__proto__"
    · rw [if_pos hp]
      simp
    · rw [if_neg hp]
      unfold weight
      rw [filter_writeOwn_of_ne f d m k _ hk]
      simp

theorem weight_rawUsage (f : Str → Str) (d : Str) (logs : List UsageLog)
    (hf : ∀ k, f k = d → k ∉ objectPrototypeNames) :
    weight f d (rawUsage logs) =
      ((logs.filter (fun r => f (rawSite r) = d)).map rawDuration).sum := by
  induction logs using List.reverseRecOn with
  | nil => rfl
  | append_singleton logs r ih =>
    rw [rawUsage_snoc, weight_addTo f d _ _ _ (plainNumeric_rawUsage logs) (hf _), ih,
      List.filter_append, List.map_append, List.sum_append]
    by_cases h : f (rawSite r) = d <;> simp [h]

theorem exists_key_addTo (f : Str → Str) (d : Str) (m : List (Str × Seconds)) (k : Str)
    (v : Seconds) (hf : f k = d → k ∉ objectPrototypeNames) :
    (∃ p ∈ addTo m k v, f p.1 = d) ↔ (∃ p ∈ m, f p.1 = d) ∨ f k = d := by
  unfold addTo writeProp
  by_cases hp : k = str "__proto__"
  · rw [if_pos hp]
    constructor
    · exact Or.inl
    · rintro (h | h)
      · exact h
      · exact absurd (hp ▸ proto_mem_names) (hf h)
  · rw [if_neg hp]
    have hk := keys_writeOwn m k (plusOrZero (readProp m k) v)
    have key : ∀ l : List (Str × Seconds),
        (∃ p ∈ l, f p.1 = d) ↔ ∃ a ∈ l.map Prod.fst, f a = d := by
      intro l
      simp
    rw [key, key, hk]
    by_cases hm : k ∈ m.map Prod.fst
    · rw [if_pos hm]
      constructor
      · exact Or.inl
      · rintro (h | h)
        · exact h
        · exact ⟨k, hm, h⟩
    · rw [if_neg hm]
      simp only [List.mem_append, List.mem_singleton]
      constructor
      · rintro ⟨a, ha | rfl, h⟩
        · exact Or.inl ⟨a, ha, h⟩
        · exact Or.inr h
      · rintro (⟨a, ha, h⟩ | h)
        · exact ⟨a, Or.inl ha, h⟩
        · exact ⟨k, Or.inr rfl, h⟩

theorem exists_key_rawUsage (f : Str → Str) (d : Str) (logs : List UsageLog)
    (hf : ∀ k, f k = d → k ∉ objectPrototypeNames) :
    (∃ p ∈ rawUsage logs, f p.1 = d) ↔ ∃ r ∈ logs, f (rawSite r) = d := by
  induction logs using List.reverseRecOn with
  | nil => simp [rawUsage]
  | append_singleton logs r ih =>
    rw [rawUsage_snoc, exists_key_addTo f d _ _ _ (hf _), ih]
    simp only [List.mem_append, List.mem_singleton]
    constructor
    · rintro (⟨a, ha, h⟩ | h)
      · exact ⟨a, Or.inl ha, h⟩
      · exact ⟨r, Or.inr rfl, h⟩
    · rintro ⟨a, ha | rfl, h⟩
      · exact Or.inl ⟨a, ha, h⟩
      · exact Or.inr h

theorem insertIndexed_perm {V : Type} (e : Nat × (Str × V)) (l : List (Nat × (Str × V))) :
    (insertIndexed e l).Perm (e :: l) := by
  induction l with
  | nil => exact List.Perm.refl _
  | cons b l ih =>
    unfold insertIndexed
    by_cases h : e.1 ≤ b.1
    · rw [if_pos h]
    · rw [if_neg h]
      exact ((List.Perm.cons b ih).trans (List.Perm.swap e b l))

theorem sortIndexed_perm {V : Type} (l : List (Nat × (Str × V))) :
    (sortIndexed l).Perm l := by
  induction l with
  | nil => exact List.Perm.refl _
  | cons e l ih =>
    unfold sortIndexed
    exact (insertIndexed_perm e (sortIndexed l)).trans (List.Perm.cons e ih)

theorem indexed_entries {V : Type} (o : List (Str × V)) :
    (o.filterMap (fun e => (arrayIndex e.1).map (fun n => (n, e)))).map Prod.snd =
      o.filter (fun e => (arrayIndex e.1).isSome) := by
  induction o with
  | nil => rfl
  | cons e rest ih =>
    cases h : arrayIndex e.1 with
    | none => simp [List.filterMap_cons, List.filter_cons, h, ih]
    | some n => simp [List.filterMap_cons, List.filter_cons, h, ih]

theorem objectEntries_perm {V : Type} (o : List (Str × V)) : (objectEntries o).Perm o := by
  unfold objectEntries
  have h1 := ((sortIndexed_perm
    (o.filterMap (fun e => (arrayIndex e.1).map (fun n => (n, e))))).map Prod.snd)
  rw [indexed_entries] at h1
  have h2 : (o.filter (fun e => (arrayIndex e.1).isNone)) =
      o.filter (fun e => !(arrayIndex e.1).isSome) := by
    congr 1
    funext e
    cases arrayIndex e.1 <;> rfl
  rw [h2]
  exact (h1.append_right _).trans (List.filter_append_perm _ o)

theorem weight_perm (f : Str → Str) (d : Str) (l1 l2 : List (Str × Seconds))
    (h : l1.Perm l2) : weight f d l1 = weight f d l2 := by
  unfold weight
  exact ((h.filter _).map _).sum_eq

/-- The fold of lines 110-114 from a dictionary `m`, read at a name `d` that is not
inherited, when the entries sent to `d` hold numbers. -/
theorem ownValue_foldl_addTo (f : Str → Str) (d : Str) (hd : d ∉ objectPrototypeNames)
    (entries m : List (Str × Seconds))
    (hnum : ∀ e ∈ entries, f e.1 = d → ∃ x, e.2 = Seconds.num x)
    (hm : ownValue m d ≠ some Seconds.text) :
    ownValue (entries.foldl (fun m hv => addTo m (f hv.1) hv.2) m) d =
      if ∃ p ∈ entries, f p.1 = d then
        some (Seconds.num (((ownValue m d).map secondsValue).getD 0 + weight f d entries))
      else ownValue m d := by
  induction entries generalizing m with
  | nil => simp
  | cons p rest ih =>
    obtain ⟨k, v⟩ := p
    have hnum2 : ∀ e ∈ rest, f e.1 = d → ∃ x, e.2 = Seconds.num x := fun e he =>
      hnum e (List.mem_cons_of_mem _ he)
    have hstep : ownValue (addTo m (f k) v) d =
        if f k = d then some (plusOrZero (readProp m (f k)) v) else ownValue m d := by
      unfold addTo
      exact ownValue_writeProp _ _ _ _ hd
    rw [List.foldl_cons]
    by_cases hk : f k = d
    · obtain ⟨x, hx⟩ := hnum (k, v) (by simp) hk
      simp only at hx
      subst hx
      have hval : plusOrZero (readProp m (f k)) (Seconds.num x) =
          Seconds.num (((ownValue m d).map secondsValue).getD 0 + x) := by
        rw [hk, readProp_plain m d hd]
        cases hv : ownValue m d with
        | none => rfl
        | some w =>
          cases w with
          | num a => rfl
          | text => exact absurd hv hm
      rw [if_pos hk, hval] at hstep
      have hm2 : ownValue (addTo m (f k) (Seconds.num x)) d ≠ some Seconds.text := by
        rw [hstep]
        intro h
        cases h
      have h2 : ∃ p ∈ (k, Seconds.num x) :: rest, f p.1 = d :=
        ⟨(k, Seconds.num x), List.mem_cons_self _ _, hk⟩
      rw [ih _ hnum2 hm2, hstep, if_pos h2]
      have hw : weight f d ((k, Seconds.num x) :: rest) = x + weight f d rest := by
        simp [weight, hk, secondsValue]
      rw [hw]
      by_cases hr : ∃ p ∈ rest, f p.1 = d
      · rw [if_pos hr]
        simp only [Option.map_some', Option.getD_some, secondsValue]
        congr 2
        omega
      · rw [if_neg hr]
        have hw0 : weight f d rest = 0 := by
          unfold weight
          have : rest.filter (fun p => f p.1 = d) = [] := by
            rw [List.filter_eq_nil_iff]
            intro a ha h
            exact hr ⟨a, ha, by simpa using h⟩
          rw [this]
          rfl
        rw [hw0]
        simp
    · rw [if_neg hk] at hstep
      have hm2 : ownValue (addTo m (f k) v) d ≠ some Seconds.text := by
        rw [hstep]
        exact hm
      rw [ih _ hnum2 hm2, hstep]
      have hw : weight f d ((k, v) :: rest) = weight f d rest := by
        simp [weight, hk]
      rw [hw]
      by_cases hr : ∃ p ∈ rest, f p.1 = d
      · obtain ⟨a, ha, h⟩ := hr
        have h1 : ∃ p ∈ rest, f p.1 = d := ⟨a, ha, h⟩
        have h2 : ∃ p ∈ (k, v) :: rest, f p.1 = d := ⟨a, by simp [ha], h⟩
        rw [if_pos h1, if_pos h2]
      · have h2 : ¬ ∃ p ∈ (k, v) :: rest, f p.1 = d := by
          rintro ⟨a, ha, h⟩
          rcases List.mem_cons.1 ha with rfl | ha
          · exact hk h
          · exact hr ⟨a, ha, h⟩
        rw [if_neg hr, if_neg h2]

/-- Away from the inherited names the buckets are the sums of the specification: for a
domain `d` that is not the name of a member of `Object.prototype`, `usageMap[d]` is the
sum of the durations of the events whose raw key `toDisplayDomain` sends to `d`, and is
absent when there is no such event. -/
theorem usage_bucket_of_plain_domain (logs : List UsageLog) (d : Str)
    (hd : d ∉ objectPrototypeNames) :
    ((∃ r ∈ logs, toDisplayDomain (rawSite r) = d) →
      ownValue (usageMap logs) d = some (Seconds.num (bucketSum logs d))) ∧
    ((¬ ∃ r ∈ logs, toDisplayDomain (rawSite r) = d) →
      ownValue (usageMap logs) d = none) := by
  have hf : ∀ k, toDisplayDomain k = d → k ∉ objectPrototypeNames := fun k h =>
    plain_of_toDisplayDomain k d hd h
  have hperm := objectEntries_perm (rawUsage logs)
  have hnum : ∀ e ∈ objectEntries (rawUsage logs), toDisplayDomain e.1 = d →
      ∃ x, e.2 = Seconds.num x := fun e he h =>
    plainNumeric_rawUsage logs e (hperm.subset he) (hf _ h)
  have hv := ownValue_foldl_addTo toDisplayDomain d hd (objectEntries (rawUsage logs)) []
    hnum (by simp [ownValue])
  have hex : (∃ p ∈ objectEntries (rawUsage logs), toDisplayDomain p.1 = d) ↔
      ∃ r ∈ logs, toDisplayDomain (rawSite r) = d := by
    rw [← exists_key_rawUsage toDisplayDomain d logs hf]
    constructor
    · rintro ⟨p, hp, h⟩
      exact ⟨p, hperm.subset hp, h⟩
    · rintro ⟨p, hp, h⟩
      exact ⟨p, hperm.symm.subset hp, h⟩
  constructor
  · intro h
    unfold usageMap
    rw [hv, if_pos (hex.2 h), weight_perm _ _ _ _ hperm, weight_rawUsage _ _ _ hf]
    simp [ownValue, bucketSum]
  · intro h
    unfold usageMap
    rw [hv, if_neg (fun h2 => h (hex.1 h2))]
    rfl

/-! ## Displayed rows -/

theorem startsWith_iff (p h : Str) : startsWith p h = true ↔ ∃ rest, h = p ++ rest := by
  induction p generalizing h with
  | nil => simp [startsWith]
  | cons a p ih =>
    cases h with
    | nil => simp [startsWith]
    | cons c cs =>
      simp only [startsWith, Bool.and_eq_true, beq_iff_eq, ih, List.cons_append,
        List.cons.injEq]
      constructor
      · rintro ⟨rfl, rest, rfl⟩
        exact ⟨rest, rfl, rfl⟩
      · rintro ⟨rest, rfl, rfl⟩
        exact ⟨rfl, rest, rfl⟩

theorem endsWith_iff (p h : Str) : endsWith p h = true ↔ ∃ pre, h = pre ++ p := by
  unfold endsWith
  rw [startsWith_iff]
  constructor
  · rintro ⟨rest, hr⟩
    refine ⟨rest.reverse, ?_⟩
    have := congrArg List.reverse hr
    simpa using this
  · rintro ⟨pre, rfl⟩
    exact ⟨pre.reverse, by simp⟩

theorem shouldIgnoreDomain_iff (suffixes : List Str) (domain : Str) :
    shouldIgnoreDomain suffixes domain = true ↔
      ∃ suffix ∈ suffixes, domain = suffix ∨ ∃ pre, domain = pre ++ '.' :: suffix := by
  induction suffixes with
  | nil => simp [shouldIgnoreDomain]
  | cons a rest ih =>
    unfold shouldIgnoreDomain
    by_cases h : domain = a ∨ endsWith ('.' :: a) domain = true
    · simp only [h, if_true, true_iff]
      refine ⟨a, by simp, ?_⟩
      rcases h with h | h
      · exact Or.inl h
      · exact Or.inr ((endsWith_iff _ _).1 h)
    · simp only [h, if_false, ih, List.mem_cons]
      constructor
      · rintro ⟨s, hs, h2⟩
        exact ⟨s, Or.inr hs, h2⟩
      · rintro ⟨s, rfl | hs, h2⟩
        · exfalso
          apply h
          rcases h2 with h2 | h2
          · exact Or.inl h2
          · exact Or.inr ((endsWith_iff _ _).2 h2)
        · exact ⟨s, hs, h2⟩

theorem insertRow_perm (a : Str × Int) (l : List (Str × Int)) :
    (insertRow a l).Perm (a :: l) := by
  induction l with
  | nil => exact List.Perm.refl _
  | cons b l ih =>
    unfold insertRow
    by_cases h : b.2 - a.2 > 0
    · rw [if_pos h]
      exact ((List.Perm.cons b ih).trans (List.Perm.swap a b l))
    · rw [if_neg h]

theorem sortRows_perm (l : List (Str × Int)) : (sortRows l).Perm l := by
  induction l with
  | nil => exact List.Perm.refl _
  | cons a l ih =>
    unfold sortRows
    exact (insertRow_perm a (sortRows l)).trans (List.Perm.cons a ih)

theorem insertRow_sorted (a : Str × Int) (l : List (Str × Int))
    (h : l.Pairwise (fun x y => y.2 ≤ x.2)) :
    (insertRow a l).Pairwise (fun x y => y.2 ≤ x.2) := by
  induction l with
  | nil => simp [insertRow]
  | cons b l ih =>
    unfold insertRow
    rw [List.pairwise_cons] at h
    by_cases hb : b.2 - a.2 > 0
    · rw [if_pos hb, List.pairwise_cons]
      refine ⟨?_, ih h.2⟩
      intro y hy
      rcases List.mem_cons.1 ((insertRow_perm a l).subset hy) with rfl | hy
      · omega
      · exact h.1 y hy
    · rw [if_neg hb, List.pairwise_cons, List.pairwise_cons]
      refine ⟨?_, h⟩
      intro y hy
      rcases List.mem_cons.1 hy with rfl | hy
      · omega
      · have := h.1 y hy
        omega

theorem sortRows_sorted (l : List (Str × Int)) :
    (sortRows l).Pairwise (fun x y => y.2 ≤ x.2) := by
  induction l with
  | nil => simp [sortRows]
  | cons a l ih =>
    unfold sortRows
    exact insertRow_sorted a _ ih

theorem insertRow_filter_ties (v : Int) (a : Str × Int) (l : List (Str × Int)) :
    (insertRow a l).filter (fun r => r.2 = v) = (a :: l).filter (fun r => r.2 = v) := by
  induction l with
  | nil => rfl
  | cons b l ih =>
    unfold insertRow
    by_cases hb : b.2 - a.2 > 0
    · rw [if_pos hb, List.filter_cons, ih]
      by_cases hbv : b.2 = v
      · have hav : ¬ (a.2 = v) := by omega
        simp [List.filter_cons, hbv, hav]
      · simp [List.filter_cons, hbv]
    · rw [if_neg hb]

theorem sortRows_filter_ties (v : Int) (l : List (Str × Int)) :
    (sortRows l).filter (fun r => r.2 = v) = l.filter (fun r => r.2 = v) := by
  induction l with
  | nil => rfl
  | cons a l ih =>
    unfold sortRows
    rw [insertRow_filter_ties, List.filter_cons, List.filter_cons, ih]

theorem mem_numericRows (rows : List (Str × Seconds)) (r : Str × Int) :
    r ∈ numericRows rows ↔ (r.1, Seconds.num r.2) ∈ rows := by
  unfold numericRows
  rw [List.mem_filterMap]
  constructor
  · rintro ⟨e, he, h⟩
    obtain ⟨k, v⟩ := e
    cases v with
    | num x =>
      simp only [Option.some.injEq] at h
      subst h
      exact he
    | text => cases h
  · intro h
    exact ⟨(r.1, Seconds.num r.2), h, rfl⟩

/-- The filter and the stable sort of lines 122-129 on given rows: the displayed rows are
exactly the rows whose domain `shouldIgnoreDomain` does not flag and whose seconds are a
number of at least 5, in descending order of seconds, rows of equal seconds keeping the
order of the given rows; a domain is flagged when it equals an entry of the suffix list
or ends with a dot followed by one; a row with 4 seconds is not displayed. -/
theorem displayRows_filter_sort (suffixes : List Str) (rows : List (Str × Seconds)) :
    (∀ r, r ∈ displayRows suffixes rows ↔
      (r.1, Seconds.num r.2) ∈ rows ∧ shouldIgnoreDomain suffixes r.1 = false ∧ 5 ≤ r.2) ∧
    (displayRows suffixes rows).Perm (numericRows (rows.filter (keepRow suffixes))) ∧
    (displayRows suffixes rows).Pairwise (fun x y => y.2 ≤ x.2) ∧
    (∀ v : Int, (displayRows suffixes rows).filter (fun r => r.2 = v) =
      (numericRows (rows.filter (keepRow suffixes))).filter (fun r => r.2 = v)) ∧
    (∀ domain, shouldIgnoreDomain suffixes domain = true ↔
      ∃ suffix ∈ suffixes, domain = suffix ∨ ∃ pre, domain = pre ++ '.' :: suffix) ∧
    (∀ site, (site, (4 : Int)) ∉ displayRows suffixes rows) := by
  have hmem : ∀ r, r ∈ displayRows suffixes rows ↔
      (r.1, Seconds.num r.2) ∈ rows ∧ shouldIgnoreDomain suffixes r.1 = false ∧
        5 ≤ r.2 := by
    intro r
    unfold displayRows
    rw [(sortRows_perm _).mem_iff, mem_numericRows, List.mem_filter]
    simp [keepRow]
  refine ⟨hmem, sortRows_perm _, sortRows_sorted _, fun v => sortRows_filter_ties v _,
    shouldIgnoreDomain_iff suffixes, ?_⟩
  intro site h
  have := ((hmem (site, 4)).1 h).2.2
  omega

/-! ## Splitting and joining -/

theorem split_ne_nil (sep : Char) (s : Str) : split sep s ≠ [] := by
  cases s with
  | nil => simp [split]
  | cons c cs =>
    unfold split
    by_cases h : c = sep
    · simp [h]
    · rw [if_neg h]
      cases split sep cs <;> simp

theorem split_cons (sep c : Char) (cs : Str) :
    split sep (c :: cs) =
      if c = sep then [] :: split sep cs
      else
        match split sep cs with
        | [] => [[c]]
        | p :: ps => (c :: p) :: ps := by
  rw [split]

theorem split_of_not_mem (sep : Char) (s : Str) (h : sep ∉ s) : split sep s = [s] := by
  induction s with
  | nil => rfl
  | cons c cs ih =>
    have hc : ¬ (c = sep) := fun e => h (by simp [e])
    have hcs : sep ∉ cs := fun e => h (List.mem_cons_of_mem _ e)
    unfold split
    rw [if_neg hc, ih hcs]

theorem split_append_sep (sep : Char) (l rest : Str) (h : sep ∉ l) :
    split sep (l ++ sep :: rest) = l :: split sep rest := by
  induction l with
  | nil =>
    show split sep (sep :: rest) = [] :: split sep rest
    rw [split_cons]
    simp
  | cons c cs ih =>
    have hc : ¬ (c = sep) := fun e => h (by simp [e])
    have hcs : sep ∉ cs := fun e => h (List.mem_cons_of_mem _ e)
    show split sep (c :: (cs ++ sep :: rest)) = (c :: cs) :: split sep rest
    rw [split_cons, if_neg hc, ih hcs]

theorem split_join (sep : Char) (ls : List Str) (hne : ls ≠ [])
    (h : ∀ l ∈ ls, sep ∉ l) : split sep (join sep ls) = ls := by
  induction ls with
  | nil => exact absurd rfl hne
  | cons p rest ih =>
    cases rest with
    | nil =>
      show split sep p = [p]
      exact split_of_not_mem sep p (h p (by simp))
    | cons q ps =>
      show split sep (p ++ sep :: join sep (q :: ps)) = p :: q :: ps
      rw [split_append_sep sep p _ (h p (by simp)),
        ih (by simp) (fun l hl => h l (List.mem_cons_of_mem _ hl))]

theorem join_split (sep : Char) (s : Str) : join sep (split sep s) = s := by
  induction s with
  | nil => rfl
  | cons c cs ih =>
    unfold split
    by_cases h : c = sep
    · rw [if_pos h]
      have hne := split_ne_nil sep cs
      cases hs : split sep cs with
      | nil => exact absurd hs hne
      | cons q ps =>
        rw [hs] at ih
        show [] ++ sep :: join sep (q :: ps) = c :: cs
        rw [ih, h]
        rfl
    · rw [if_neg h]
      cases hs : split sep cs with
      | nil => exact absurd hs (split_ne_nil sep cs)
      | cons q ps =>
        rw [hs] at ih
        cases ps with
        | nil =>
          show c :: q = c :: cs
          rw [← ih]
          rfl
        | cons q2 ps2 =>
          show (c :: q) ++ sep :: join sep (q2 :: ps2) = c :: cs
          rw [← ih]
          rfl

theorem not_mem_of_mem_split (sep : Char) (s : Str) :
    ∀ l ∈ split sep s, sep ∉ l := by
  induction s with
  | nil => simp [split]
  | cons c cs ih =>
    unfold split
    by_cases h : c = sep
    · rw [if_pos h]
      intro l hl
      rcases List.mem_cons.1 hl with rfl | hl
      · simp
      · exact ih l hl
    · rw [if_neg h]
      cases hs : split sep cs with
      | nil => simp [Ne.symm h]
      | cons q ps =>
        rw [hs] at ih
        intro l hl
        rcases List.mem_cons.1 hl with rfl | hl
        · intro hm
          rcases List.mem_cons.1 hm with e | hm
          · exact h e.symm
          · exact ih q (by simp) hm
        · exact ih l (List.mem_cons_of_mem _ hl)

theorem join_drop_suffix (sep : Char) (n : Nat) (ls : List Str) :
    join sep (ls.drop n) <:+ join sep ls := by
  induction n generalizing ls with
  | zero => exact List.suffix_refl _
  | succ n ih =>
    cases ls with
    | nil => exact List.suffix_refl _
    | cons p rest =>
      cases rest with
      | nil =>
        show join sep ([].drop n) <:+ p
        simp [join]
      | cons q ps =>
        show join sep ((q :: ps).drop n) <:+ p ++ sep :: join sep (q :: ps)
        refine (ih (q :: ps)).trans ?_
        exact ⟨p ++ [sep], by simp⟩

/-- With labels `pre ++ [a, b, c]`, the second-to-last label and the trailing slices. -/
theorem labels_tail (pre : List Str) (a b c : Str) :
    (pre ++ [a, b, c]).getD ((pre ++ [a, b, c]).length - 2) [] = b ∧
    lastN 3 (pre ++ [a, b, c]) = [a, b, c] ∧ lastN 2 (pre ++ [a, b, c]) = [b, c] := by
  refine ⟨?_, ?_, ?_⟩
  · have h1 : (pre ++ [a, b, c]).length - 2 = pre.length + 1 := by simp
    rw [h1, List.getD_eq_getElem?_getD, List.getElem?_append_right (by omega)]
    simp
  · unfold lastN
    have h1 : (pre ++ [a, b, c]).length - 3 = pre.length := by simp
    rw [h1, List.drop_left]
  · unfold lastN
    have h1 : (pre ++ [a, b, c]).length - 2 = pre.length + 1 := by simp
    rw [h1, List.drop_append_eq_append_drop]
    simp

theorem reduceLabels_of_labels (h : Str) (pre : List Str) (a b c : Str)
    (hl : split '.' h = pre ++ [a, b, c]) :
    reduceLabels h =
      if utf16Length b ≤ 3 then join '.' [a, b, c] else join '.' [b, c] := by
  obtain ⟨h1, h2, h3⟩ := labels_tail pre a b c
  have hlen : ¬ ((pre ++ [a, b, c]).length ≤ 2) := by simp
  have hge : (pre ++ [a, b, c]).length ≥ 3 := by simp
  unfold reduceLabels
  simp only [hl, hlen, if_false, h1, h2, h3, hge, and_true]

/-- C8, the failing inputs: the hosts a.example.uk and foo.firm.in have three labels and
end in the country-code labels uk and in, yet `normalizeDomain` keeps two labels, not
three: it tests only the length of the second-to-last label, while the sibling
`toDisplayDomain` consults the country-code list and keeps three. -/
theorem normalizeDomain_ignores_country_codes :
    split '.' (hostPart (str "a.example.uk")) = [str "a", str "example", str "uk"] ∧
    str "uk" ∈ ccTlds ∧
    normalizeDomain (some (str "a.example.uk")) = str "example.uk" ∧
    normalizeDomain (some (str "a.example.uk")) ≠
      join '.' [str "a", str "example", str "uk"] ∧
    toDisplayDomain (str "a.example.uk") = str "a.example.uk" ∧
    str "in" ∈ ccTlds ∧
    normalizeDomain (some (str "foo.firm.in")) = str "firm.in" ∧
    toDisplayDomain (str "foo.firm.in") = str "foo.firm.in" := by
  decide

/-- The rule `normalizeDomain` does follow: when the host part has more than two
dot-separated labels, ending in `a`, `b`, `c`, the result is `a.b.c` if the second-to-last
label `b` has at most 3 UTF-16 code units and `b.c` otherwise, whatever the last label. -/
theorem normalizeDomain_label_rule (s : Str) (pre : List Str) (a b c : Str)
    (hs : s ≠ []) (hdots : ∀ l ∈ pre ++ [a, b, c], '.' ∉ l)
    (hhost : hostPart s = join '.' (pre ++ [a, b, c])) :
    normalizeDomain (some s) =
      if utf16Length b ≤ 3 then join '.' [a, b, c] else join '.' [b, c] := by
  have hl : split '.' (hostPart s) = pre ++ [a, b, c] := by
    rw [hhost]
    exact split_join '.' _ (by simp) hdots
  simp only [normalizeDomain, hs, if_false]
  exact reduceLabels_of_labels _ pre a b c hl

theorem normalizeDomain_label_rule_witness :
    normalizeDomain (some (str "http://www.Google.co.in/abc?x=1")) = str "google.co.in" ∧
    normalizeDomain (some (str "sub.example.com")) = str "example.com" :=
  ⟨(normalizeDomain_label_rule (str "http://www.Google.co.in/abc?x=1") []
      (str "google") (str "co") (str "in") (by decide) (by decide) (by decide)).trans
      (by decide),
   (normalizeDomain_label_rule (str "sub.example.com") []
      (str "sub") (str "example") (str "com") (by decide) (by decide) (by decide)).trans
      (by decide)⟩

/-! ## Re-normalising a normalised domain -/

theorem lowerChar_idem (c : Char) : lowerChar (lowerChar c) = lowerChar c := by
  by_cases h : 65 ≤ c.toNat ∧ c.toNat ≤ 90
  · have hc : c = Char.ofNat c.toNat := (Char.ofNat_toNat c).symm
    obtain ⟨n, hn⟩ : ∃ n, c.toNat = n := ⟨_, rfl⟩
    rw [hn] at hc h
    obtain ⟨h1, h2⟩ := h
    subst hc
    interval_cases n <;> decide
  · have h1 : lowerChar c = c := by
      unfold lowerChar
      rw [if_neg h]
    rw [h1, h1]

theorem toLowerCase_fixed (r : Str) (h : ∀ c ∈ r, lowerChar c = c) : toLowerCase r = r := by
  unfold toLowerCase
  induction r with
  | nil => rfl
  | cons c cs ih =>
    rw [List.map_cons, h c (by simp), ih (fun x hx => h x (List.mem_cons_of_mem _ hx))]

theorem trim_subset (s : Str) : trim s ⊆ s := by
  unfold trim
  intro c hc
  rw [List.mem_reverse] at hc
  have h1 := (List.dropWhile_suffix isWhite).subset hc
  rw [List.mem_reverse] at h1
  exact (List.dropWhile_suffix isWhite).subset h1

theorem stripLeading_subset (p h : Str) : stripLeading p h ⊆ h := by
  unfold stripLeading
  by_cases hp : startsWith p h = true
  · rw [if_pos hp]
    exact (List.drop_suffix _ _).subset
  · rw [if_neg hp]
    exact List.Subset.refl _

theorem firstPiece_subset (sep : Char) (h : Str) : firstPiece sep h ⊆ h := by
  unfold firstPiece
  have hj := join_split sep h
  cases hs : split sep h with
  | nil => simp
  | cons p ps =>
    rw [hs] at hj
    cases ps with
    | nil =>
      simp only [List.headD_cons]
      rw [← hj]
      exact List.Subset.refl _
    | cons q qs =>
      simp only [List.headD_cons]
      rw [← hj]
      show p ⊆ p ++ sep :: join sep (q :: qs)
      exact List.subset_append_left _ _

theorem not_mem_firstPiece (sep : Char) (h : Str) : sep ∉ firstPiece sep h := by
  unfold firstPiece
  cases hs : split sep h with
  | nil => simp
  | cons p ps =>
    simp only [List.headD_cons]
    exact not_mem_of_mem_split sep h p (by simp [hs])

theorem firstPiece_of_not_mem (sep : Char) (h : Str) (hm : sep ∉ h) :
    firstPiece sep h = h := by
  unfold firstPiece
  rw [split_of_not_mem sep h hm]
  rfl

theorem stripLeading_of_not_mem (p h : Str) (c : Char) (hc : c ∈ p) (hm : c ∉ h) :
    stripLeading p h = h := by
  unfold stripLeading
  have hp : ¬ (startsWith p h = true) := by
    intro hp
    obtain ⟨rest, hr⟩ := (startsWith_iff p h).1 hp
    apply hm
    rw [hr]
    exact List.mem_append_left _ hc
  rw [if_neg hp]

theorem mem_hostPart (s : Str) :
    (∀ c ∈ hostPart s, lowerChar c = c) ∧ '/' ∉ hostPart s ∧ '?' ∉ hostPart s := by
  unfold hostPart
  refine ⟨?_, ?_, ?_⟩
  · intro c hc
    have h1 := firstPiece_subset _ _ hc
    have h2 := firstPiece_subset _ _ h1
    have h3 := stripLeading_subset _ _ h2
    have h4 := stripLeading_subset _ _ h3
    have h5 := stripLeading_subset _ _ h4
    have h6 := trim_subset _ h5
    unfold toLowerCase at h6
    obtain ⟨c0, _, rfl⟩ := List.mem_map.1 h6
    exact lowerChar_idem c0
  · intro hc
    exact not_mem_firstPiece '/' _ (firstPiece_subset _ _ hc)
  · exact not_mem_firstPiece '?' _

theorem reduceLabels_suffix (h : Str) : reduceLabels h <:+ h := by
  unfold reduceLabels
  have hj := join_split '.' h
  by_cases h1 : (split '.' h).length ≤ 2
  · simp only [h1, if_true]
    exact List.suffix_refl _
  · simp only [h1, if_false]
    split
    · have := join_drop_suffix '.' ((split '.' h).length - 3) (split '.' h)
      rw [hj] at this
      exact this
    · have := join_drop_suffix '.' ((split '.' h).length - 2) (split '.' h)
      rw [hj] at this
      exact this

theorem exists_three_labels (l : List Str) (h : 3 ≤ l.length) :
    ∃ pre a b c, l = pre ++ [a, b, c] := by
  have h1 : (l.drop (l.length - 3)).length = 3 := by
    rw [List.length_drop]
    omega
  obtain ⟨a, b, c, habc⟩ := List.length_eq_three.1 h1
  refine ⟨l.take (l.length - 3), a, b, c, ?_⟩
  rw [← habc, List.take_append_drop]

theorem reduceLabels_idem (h : Str) : reduceLabels (reduceLabels h) = reduceLabels h := by
  by_cases h1 : (split '.' h).length ≤ 2
  · have : reduceLabels h = h := by
      unfold reduceLabels
      simp only [h1, if_true]
    rw [this, this]
  · obtain ⟨pre, a, b, c, hl⟩ := exists_three_labels (split '.' h) (by omega)
    have hdots : ∀ l ∈ pre ++ [a, b, c], '.' ∉ l := by
      rw [← hl]
      exact not_mem_of_mem_split '.' h
    have ha : '.' ∉ a := hdots a (by simp)
    have hb : '.' ∉ b := hdots b (by simp)
    have hc : '.' ∉ c := hdots c (by simp)
    rw [reduceLabels_of_labels h pre a b c hl]
    by_cases hb3 : utf16Length b ≤ 3
    · rw [if_pos hb3]
      have hs : split '.' (join '.' [a, b, c]) = [] ++ [a, b, c] :=
        split_join '.' [a, b, c] (by simp) (by
          intro l hl
          simp only [List.mem_cons, List.mem_singleton, List.not_mem_nil, or_false] at hl
          rcases hl with rfl | rfl | rfl <;> assumption)
      rw [reduceLabels_of_labels _ [] a b c hs, if_pos hb3]
    · rw [if_neg hb3]
      have hs : split '.' (join '.' [b, c]) = [b, c] :=
        split_join '.' [b, c] (by simp) (by
          intro l hl
          simp only [List.mem_cons, List.mem_singleton, List.not_mem_nil, or_false] at hl
          rcases hl with rfl | rfl <;> assumption)
      unfold reduceLabels
      simp [hs]

theorem hostPart_fixed (r : Str) (hlow : ∀ c ∈ r, lowerChar c = c) (hslash : '/' ∉ r)
    (hq : '?' ∉ r) (htrim : trim r = r) (hwww : startsWith (str "www.") r = false) :
    hostPart r = r := by
  unfold hostPart
  simp only [toLowerCase_fixed r hlow, htrim]
  rw [stripLeading_of_not_mem (str "http://") r '/' (by decide) hslash,
    stripLeading_of_not_mem (str "https://") r '/' (by decide) hslash]
  have h4 : stripLeading (str "www.") r = r := by
    unfold stripLeading
    rw [hwww]
    rfl
  rw [h4, firstPiece_of_not_mem '/' r hslash, firstPiece_of_not_mem '?' r hq]

/-- C10, as stated, fails: a result that starts with www. is stripped again, the fallback
"Unknown" is lower-cased, and a result with an outer blank is trimmed. -/
theorem normalizeDomain_not_idempotent :
    normalizeDomain (some (str "x.www.ab.com")) = str "www.ab.com" ∧
    normalizeDomain (some (normalizeDomain (some (str "x.www.ab.com")))) = str "ab.com" ∧
    normalizeDomain (some (normalizeDomain (some (str "")))) ≠
      normalizeDomain (some (str "")) ∧
    normalizeDomain (some (normalizeDomain (some (str "a /b")))) ≠
      normalizeDomain (some (str "a /b")) := by
  decide

/-- C10, amended: for a non-empty input whose normalised domain is non-empty, has no
leading or trailing white space and does not start with www., normalising the normalised
domain again returns it unchanged. -/
theorem normalizeDomain_idempotent_of_clean (s : Str) (hs : s ≠ [])
    (hne : normalizeDomain (some s) ≠ [])
    (htrim : trim (normalizeDomain (some s)) = normalizeDomain (some s))
    (hwww : startsWith (str "www.") (normalizeDomain (some s)) = false) :
    normalizeDomain (some (normalizeDomain (some s))) = normalizeDomain (some s) := by
  have hr : normalizeDomain (some s) = reduceLabels (hostPart s) := by
    simp only [normalizeDomain, hs, if_false]
  rw [hr] at hne htrim hwww ⊢
  obtain ⟨hlow, hslash, hq⟩ := mem_hostPart s
  have hsub := (reduceLabels_suffix (hostPart s)).subset
  have hfix : hostPart (reduceLabels (hostPart s)) = reduceLabels (hostPart s) :=
    hostPart_fixed _ (fun c hc => hlow c (hsub hc)) (fun hc => hslash (hsub hc))
      (fun hc => hq (hsub hc)) htrim hwww
  simp only [normalizeDomain, hne, if_false]
  rw [hfix, reduceLabels_idem]

theorem normalizeDomain_idempotent_of_clean_witness :
    normalizeDomain (some (normalizeDomain (some (str "http://www.Google.co.in/abc?x=1")))) =
      normalizeDomain (some (str "http://www.Google.co.in/abc?x=1")) :=
  normalizeDomain_idempotent_of_clean (str "http://www.Google.co.in/abc?x=1")
    (by decide) (by decide) (by decide) (by decide)

/-- The fallback "Unknown" is never the result of `normalizeDomain` on a truthy input,
which is lower-cased: on the rows built at line 184 the key of line 202 separates
exactly the normalised domains. -/
theorem normalizeDomain_ne_unknown (s : Str) (hs : s ≠ []) :
    normalizeDomain (some s) ≠ str "Unknown" := by
  intro he
  have hr : normalizeDomain (some s) = reduceLabels (hostPart s) := by
    simp only [normalizeDomain, hs, if_false]
  have hm : 'U' ∈ reduceLabels (hostPart s) := by
    rw [← hr, he]
    decide
  have := (mem_hostPart s).1 'U' ((reduceLabels_suffix (hostPart s)).subset hm)
  revert this
  decide

end Childguard
